import Mathlib

/-!
Verification of the x86-32 lowering backend (IceTargetLoweringX8632.cpp).

This file gives a shallow embedding, in Lean, of the data model and the
operations of the x86-32 target lowering, translated from the C++ source,
and proves (or refutes) the frozen specification claims C1..C10 about it.
Machine integers are modelled as `Nat` with explicit reduction modulo
`2 ^ 32` wherever the C++ code computes in `uint32_t`.
-/

namespace SZ

/-- Modulus of 32-bit unsigned arithmetic (`uint32_t`). -/
def two32 : Nat := 4294967296

theorem two32_eq_pow : two32 = 2 ^ 32 := by norm_num [two32]

/-- Stack alignment in bytes (`X86_STACK_ALIGNMENT_BYTES`, line 131). -/
def X86_STACK_ALIGNMENT_BYTES : Nat := 16

/-- Size of the return address on the stack (`X86_RET_IP_SIZE_BYTES`, line 133). -/
def X86_RET_IP_SIZE_BYTES : Nat := 4

/-- Mirrors `applyAlignment` (lines 143-147):
`return (Value + Alignment - 1) & -Alignment;` in `uint32_t` arithmetic.
The two's-complement negation `-Alignment` is `(2^32 - Alignment) mod 2^32`,
and the sum `Value + Alignment - 1` wraps modulo `2^32`. -/
def applyAlignment (value alignment : Nat) : Nat :=
  ((value + alignment - 1) % two32) &&& ((two32 - alignment) % two32)

/-- Mirrors `applyStackAlignment` (lines 151-153). -/
def applyStackAlignment (value : Nat) : Nat :=
  applyAlignment value X86_STACK_ALIGNMENT_BYTES

/-- Bit-level core of alignment: masking with the two's complement of a power
of two clears the low `k` bits, i.e. rounds down to a multiple of `2 ^ k`. -/
theorem and_neg_two_pow (x k : Nat) (hk : k ≤ 32) (hx : x < two32) :
    x &&& (two32 - 2 ^ k) = x / 2 ^ k * 2 ^ k := by
  have hsplit : two32 - 2 ^ k = (2 ^ (32 - k) - 1) <<< k := by
    rw [Nat.shiftLeft_eq, two32_eq_pow, Nat.sub_mul, one_mul, ← pow_add]
    congr 2
    omega
  have hrhs : x / 2 ^ k * 2 ^ k = (x >>> k) <<< k := by
    rw [Nat.shiftLeft_eq, Nat.shiftRight_eq_div_pow]
  rw [hsplit, hrhs]
  apply Nat.eq_of_testBit_eq
  intro j
  rw [Nat.testBit_and, Nat.testBit_shiftLeft, Nat.testBit_shiftLeft,
    Nat.testBit_shiftRight, Nat.testBit_two_pow_sub_one]
  by_cases hjk : k ≤ j
  · have hkj : k + (j - k) = j := by omega
    rw [hkj]
    by_cases hj32 : j < 32
    · have : j - k < 32 - k := by omega
      simp [hjk, this]
    · have hxj : x.testBit j = false := by
        apply Nat.testBit_lt_two_pow
        calc x < two32 := hx
        _ = 2 ^ 32 := two32_eq_pow
        _ ≤ 2 ^ j := Nat.pow_le_pow_right (by norm_num) (by omega)
      simp [hxj]
  · simp [hjk, ge_iff_le]

/-- Helper: for a power-of-two alignment with no `uint32` overflow,
`applyAlignment` computes `((v + a - 1) / a) * a`. -/
theorem applyAlignment_eq_div_mul (v k : Nat) (hk : k ≤ 31)
    (hov : v + 2 ^ k - 1 < two32) :
    applyAlignment v (2 ^ k) = (v + 2 ^ k - 1) / 2 ^ k * 2 ^ k := by
  unfold applyAlignment
  have h1 : (v + 2 ^ k - 1) % two32 = v + 2 ^ k - 1 := Nat.mod_eq_of_lt hov
  have hklt : 2 ^ k ≤ two32 := by
    rw [two32_eq_pow]
    exact Nat.pow_le_pow_right (by norm_num) (by omega)
  have h2 : (two32 - 2 ^ k) % two32 = two32 - 2 ^ k := by
    apply Nat.mod_eq_of_lt
    have : 0 < 2 ^ k := Nat.pos_pow_of_pos k (by norm_num)
    omega
  rw [h1, h2]
  exact and_neg_two_pow _ k (by omega) hov

/-- Helper: the rounded value is a multiple of the alignment, is at least the
input value, and is the least such multiple. -/
theorem applyAlignment_spec (v k : Nat) (hk : k ≤ 31)
    (hov : v + 2 ^ k - 1 < two32) :
    2 ^ k ∣ applyAlignment v (2 ^ k) ∧ v ≤ applyAlignment v (2 ^ k) ∧
      ∀ m, 2 ^ k ∣ m → v ≤ m → applyAlignment v (2 ^ k) ≤ m := by
  have ha : 0 < 2 ^ k := Nat.pos_pow_of_pos k (by norm_num)
  rw [applyAlignment_eq_div_mul v k hk hov]
  set x := v + 2 ^ k - 1 with hx
  refine ⟨dvd_mul_left (2 ^ k) (x / 2 ^ k), ?_, ?_⟩
  · have hdm : 2 ^ k * (x / 2 ^ k) + x % 2 ^ k = x := Nat.div_add_mod x (2 ^ k)
    have hr : x % 2 ^ k < 2 ^ k := Nat.mod_lt x ha
    have hcomm : x / 2 ^ k * 2 ^ k = 2 ^ k * (x / 2 ^ k) := Nat.mul_comm _ _
    omega
  · intro m hm hvm
    obtain ⟨s, hs⟩ := hm
    by_contra hlt
    push_neg at hlt
    have hs1 : s + 1 ≤ x / 2 ^ k := by
      by_contra hc
      push_neg at hc
      have : x / 2 ^ k ≤ s := by omega
      have : x / 2 ^ k * 2 ^ k ≤ s * 2 ^ k := Nat.mul_le_mul_right _ this
      have : s * 2 ^ k = m := by rw [hs]; ring
      omega
    have h2 : (s + 1) * 2 ^ k ≤ x / 2 ^ k * 2 ^ k := Nat.mul_le_mul_right _ hs1
    have h3 : x / 2 ^ k * 2 ^ k ≤ x := Nat.div_mul_le_self x (2 ^ k)
    have h4 : (s + 1) * 2 ^ k = m + 2 ^ k := by rw [hs]; ring
    omega

/-- C10: for every `Value` and every non-zero power-of-two `Alignment` such
that `Value + Alignment - 1` does not overflow `uint32`, `applyAlignment`
returns the smallest multiple of `Alignment` that is `≥ Value`. -/
theorem C10_applyAlignment_least_multiple (v a k : Nat) (ha : a = 2 ^ k)
    (hk : k ≤ 31) (hov : v + a - 1 < two32) :
    a ∣ applyAlignment v a ∧ v ≤ applyAlignment v a ∧
      ∀ m, a ∣ m → v ≤ m → applyAlignment v a ≤ m := by
  subst ha
  exact applyAlignment_spec v k hk hov

/-- Witness for C10 at `Value = 21`, `Alignment = 16`: the result is 32. -/
theorem C10_applyAlignment_least_multiple_witness :
    (16 : Nat) = 2 ^ 4 ∧ (21 : Nat) + 16 - 1 < two32 ∧
      (16 ∣ applyAlignment 21 16 ∧ 21 ≤ applyAlignment 21 16 ∧
        ∀ m, 16 ∣ m → 21 ≤ m → applyAlignment 21 16 ≤ m) :=
  ⟨by norm_num, by norm_num [two32],
    C10_applyAlignment_least_multiple 21 16 4 (by norm_num) (by norm_num)
      (by norm_num [two32])⟩

/-! Frame layout: stack realignment in `addProlog` (claim C4).

`NeedsStackAlignment` starts out false and is set to true in exactly two
places: `lowerCall` (line 1739) and `lowerAlloca` (line 1117).  We model the
flag as a predicate over the kinds of IR instructions the function contains. -/

/-- Kinds of IR instruction relevant to the `NeedsStackAlignment` flag. -/
inductive IRInstKind
  | call
  | alloca
  | arith
  | load
  | store
  | ret
  | br
  deriving DecidableEq, Repr

/-- True for the instruction kinds whose lowering sets `NeedsStackAlignment`:
`lowerCall` (line 1739) and `lowerAlloca` (line 1117). -/
def setsNeedsStackAlignment : IRInstKind → Bool
  | .call => true
  | .alloca => true
  | _ => false

/-- The `NeedsStackAlignment` flag after lowering a function whose
instruction kinds are `f`. -/
def needsStackAlignmentFlag (f : List IRInstKind) : Bool :=
  f.any setsNeedsStackAlignment

/-- Mirrors `addProlog` lines 792-797: when `NeedsStackAlignment` is set,
` uint32_t StackOffset = X86_RET_IP_SIZE_BYTES + PreservedRegsSizeBytes;
  uint32_t StackSize = applyStackAlignment(StackOffset + SpillAreaSizeBytes);
  SpillAreaSizeBytes = StackSize - StackOffset;`
and otherwise `SpillAreaSizeBytes` is left unchanged. -/
def alignedSpillAreaSizeBytes (needsStackAlignment : Bool)
    (preservedRegsSizeBytes spillAreaSizeBytes : Nat) : Nat :=
  if needsStackAlignment then
    applyStackAlignment
        (X86_RET_IP_SIZE_BYTES + preservedRegsSizeBytes + spillAreaSizeBytes) -
      (X86_RET_IP_SIZE_BYTES + preservedRegsSizeBytes)
  else spillAreaSizeBytes

/-- C4: when the function contains a call or alloca (so `NeedsStackAlignment`
is set), `addProlog` adjusts `SpillAreaSizeBytes` so that the return-address
size (4) plus the preserved-register push area plus the adjusted
`SpillAreaSizeBytes` is a multiple of 16; the adjustment only grows the area
(by less than 16); and the realignment happens iff some call or alloca
requested it (otherwise the spill area size is unchanged). -/
theorem C4_addProlog_stack_realignment (f : List IRInstKind)
    (preserved spill : Nat)
    (hov : X86_RET_IP_SIZE_BYTES + preserved + spill + 15 < two32) :
    (needsStackAlignmentFlag f = true →
      (X86_RET_IP_SIZE_BYTES + preserved +
          alignedSpillAreaSizeBytes (needsStackAlignmentFlag f) preserved spill)
          % 16 = 0 ∧
      spill ≤ alignedSpillAreaSizeBytes (needsStackAlignmentFlag f)
          preserved spill ∧
      alignedSpillAreaSizeBytes (needsStackAlignmentFlag f) preserved spill <
        spill + 16) ∧
    (needsStackAlignmentFlag f = false →
      alignedSpillAreaSizeBytes (needsStackAlignmentFlag f) preserved spill =
        spill) ∧
    (needsStackAlignmentFlag f = true ↔
      ∃ i ∈ f, i = IRInstKind.call ∨ i = IRInstKind.alloca) := by
  have h16 : (16 : Nat) = 2 ^ 4 := by norm_num
  constructor
  · intro hneeds
    rw [hneeds]
    set X := X86_RET_IP_SIZE_BYTES + preserved + spill with hX
    have hret : X86_RET_IP_SIZE_BYTES = 4 := rfl
    have hov16 : X + 2 ^ 4 - 1 < two32 := by omega
    have hspec := applyAlignment_spec X 4 (by norm_num) hov16
    obtain ⟨hdvd, hle, hmin⟩ := hspec
    have heq : applyStackAlignment X = applyAlignment X (2 ^ 4) := by
      unfold applyStackAlignment X86_STACK_ALIGNMENT_BYTES
      norm_num
    set A := applyAlignment X (2 ^ 4) with hA
    have hupper : A ≤ X + 15 := by
      obtain ⟨q, r, hqr, hr⟩ : ∃ q r, X = 16 * q + r ∧ r < 16 :=
        ⟨X / 16, X % 16, (Nat.div_add_mod X 16).symm, Nat.mod_lt X (by norm_num)⟩
      by_cases hr0 : r = 0
      · have hXdvd : (2 : Nat) ^ 4 ∣ X := ⟨q, by norm_num; omega⟩
        have := hmin X hXdvd (le_refl X)
        omega
      · have hmdvd : (2 : Nat) ^ 4 ∣ 16 * (q + 1) := ⟨q + 1, by norm_num⟩
        have := hmin (16 * (q + 1)) hmdvd (by omega)
        omega
    unfold alignedSpillAreaSizeBytes
    simp only [if_true]
    rw [heq]
    obtain ⟨s, hs⟩ := hdvd
    have hs16 : A = 16 * s := by rw [hs]; norm_num
    refine ⟨?_, by omega, by omega⟩
    have hsub : X86_RET_IP_SIZE_BYTES + preserved +
        (A - (X86_RET_IP_SIZE_BYTES + preserved)) = A := by
      omega
    rw [hsub, hs16, Nat.mul_mod_right]
  · constructor
    · intro hneeds
      unfold alignedSpillAreaSizeBytes
      rw [hneeds]
      simp
    · unfold needsStackAlignmentFlag
      rw [List.any_eq_true]
      constructor
      · rintro ⟨i, hi, hset⟩
        refine ⟨i, hi, ?_⟩
        cases i <;> simp_all [setsNeedsStackAlignment]
      · rintro ⟨i, hi, hset⟩
        refine ⟨i, hi, ?_⟩
        rcases hset with h | h <;> subst h <;> rfl

/-- Witness for C4 at a function `[call, ret]` with 8 preserved-register
bytes and a 5-byte spill area: the adjusted spill area is 20 bytes. -/
theorem C4_addProlog_stack_realignment_witness :
    X86_RET_IP_SIZE_BYTES + 8 + 5 + 15 < two32 ∧
    ((needsStackAlignmentFlag [IRInstKind.call, IRInstKind.ret] = true →
      (X86_RET_IP_SIZE_BYTES + 8 +
          alignedSpillAreaSizeBytes
            (needsStackAlignmentFlag [IRInstKind.call, IRInstKind.ret]) 8 5)
          % 16 = 0 ∧
      5 ≤ alignedSpillAreaSizeBytes
          (needsStackAlignmentFlag [IRInstKind.call, IRInstKind.ret]) 8 5 ∧
      alignedSpillAreaSizeBytes
          (needsStackAlignmentFlag [IRInstKind.call, IRInstKind.ret]) 8 5 <
        5 + 16) ∧
    (needsStackAlignmentFlag [IRInstKind.call, IRInstKind.ret] = false →
      alignedSpillAreaSizeBytes
          (needsStackAlignmentFlag [IRInstKind.call, IRInstKind.ret]) 8 5 =
        5) ∧
    (needsStackAlignmentFlag [IRInstKind.call, IRInstKind.ret] = true ↔
      ∃ i ∈ [IRInstKind.call, IRInstKind.ret],
        i = IRInstKind.call ∨ i = IRInstKind.alloca)) :=
  ⟨by norm_num [two32, X86_RET_IP_SIZE_BYTES],
    C4_addProlog_stack_realignment [IRInstKind.call, IRInstKind.ret] 8 5
      (by norm_num [two32, X86_RET_IP_SIZE_BYTES])⟩

/-! Lowering of `i64` multiplication (claim C1).

`lowerArithmetic`, case `InstArithmetic::Mul` for an `i64` destination
(lines 1209-1238), emits the schoolbook sequence below over 32-bit halves.
We embed the emitted pseudo-instruction list and give it its x86 semantics
over a register state, with all register values reduced modulo `2 ^ 32`. -/

/-- The registers appearing in the `i64` multiply lowering: the four 32-bit
halves of the sources `b` (`Src0`) and `c` (`Src1`), the temporaries
`T_1`..`T_3`, the pair `T_4Lo`/`T_4Hi` (pinned to `eax`/`edx`), and the
two destination halves. -/
inductive MulReg
  | bLo
  | bHi
  | cLo
  | cHi
  | t1
  | t2
  | t3
  | t4Lo
  | t4Hi
  | destLo
  | destHi
  deriving DecidableEq, Repr

/-- The pseudo-instructions used by the `i64` multiply lowering.
` mulWide dLo dHi a s` is the one-operand x86 `mul`: it writes the
double-width product of `a` and `s` into the register pair `dHi:dLo`
(`edx:eax`); in the source the write to `edx` is represented by the
`InstFakeDef` of `T_4Hi` inserted right after `_mul`. -/
inductive MulInst
  | mov (d s : MulReg)
  | imul (d s : MulReg)
  | mulWide (dLo dHi a s : MulReg)
  | fakeDef (d : MulReg)
  | add (d s : MulReg)
  deriving DecidableEq, Repr

/-- One step of the x86 semantics of `MulInst` over a register state. -/
def mulStep (st : MulReg → Nat) : MulInst → (MulReg → Nat)
  | .mov d s => Function.update st d (st s)
  | .imul d s => Function.update st d (st d * st s % two32)
  | .mulWide dLo dHi a s =>
      Function.update (Function.update st dLo (st a * st s % two32)) dHi
        (st a * st s / two32 % two32)
  | .fakeDef _ => st
  | .add d s => Function.update st d ((st d + st s) % two32)

/-- Execute a pseudo-instruction list from an initial register state. -/
def mulExec (l : List MulInst) (st : MulReg → Nat) : MulReg → Nat :=
  l.foldl mulStep st

/-- Mirrors the emission order of `lowerArithmetic` for `Mul` at type `i64`
(lines 1224-1237), with `Src0 = b` and `Src1 = c`:
` _mov(T_1, Src0Hi); _imul(T_1, Src1Lo);
  _mov(T_2, Src1Hi); _imul(T_2, Src0Lo);
  _mov(T_3, Src0Lo, Reg_eax); _mul(T_4Lo, T_3, Src1Lo);
  InstFakeDef(T_4Hi, T_4Lo);
  _mov(DestLo, T_4Lo); _add(T_4Hi, T_1); _add(T_4Hi, T_2);
  _mov(DestHi, T_4Hi);` -/
def lowerMulI64Insts : List MulInst :=
  [MulInst.mov MulReg.t1 MulReg.bHi,
   MulInst.imul MulReg.t1 MulReg.cLo,
   MulInst.mov MulReg.t2 MulReg.cHi,
   MulInst.imul MulReg.t2 MulReg.bLo,
   MulInst.mov MulReg.t3 MulReg.bLo,
   MulInst.mulWide MulReg.t4Lo MulReg.t4Hi MulReg.t3 MulReg.cLo,
   MulInst.fakeDef MulReg.t4Hi,
   MulInst.mov MulReg.destLo MulReg.t4Lo,
   MulInst.add MulReg.t4Hi MulReg.t1,
   MulInst.add MulReg.t4Hi MulReg.t2,
   MulInst.mov MulReg.destHi MulReg.t4Hi]

/-- Initial register state holding the 32-bit halves of the two sources. -/
def mulInit (bl bh cl ch : Nat) : MulReg → Nat
  | .bLo => bl
  | .bHi => bh
  | .cLo => cl
  | .cHi => ch
  | _ => 0

/-- Rewriting helper for chains of 32-bit additions. -/
theorem mod_add_chain (q x y m : Nat) :
    ((q % m + x % m) % m + y % m) % m = (q + x + y) % m := by
  conv_rhs => rw [Nat.add_mod, Nat.add_mod q x]

/-- Decomposition of the full 64-bit product into the low 32-bit remainder
and a 32-bit-shifted quotient part. -/
theorem prod_decomp (bl bh cl ch : Nat) :
    (bl + two32 * bh) * (cl + two32 * ch) =
      bl * cl % two32 +
        two32 * (bl * cl / two32 + bh * cl + ch * bl + two32 * (bh * ch)) := by
  have h : two32 * (bl * cl / two32) + bl * cl % two32 = bl * cl :=
    Nat.div_add_mod (bl * cl) two32
  calc (bl + two32 * bh) * (cl + two32 * ch)
      = bl * cl + two32 * (bh * cl) + two32 * (bl * ch) +
          two32 * two32 * (bh * ch) := by ring
    _ = (two32 * (bl * cl / two32) + bl * cl % two32) + two32 * (bh * cl) +
          two32 * (bl * ch) + two32 * two32 * (bh * ch) := by rw [h]
    _ = bl * cl % two32 +
          two32 * (bl * cl / two32 + bh * cl + ch * bl + two32 * (bh * ch)) := by
        ring

theorem prod_div (bl bh cl ch : Nat) :
    (bl + two32 * bh) * (cl + two32 * ch) / two32 =
      bl * cl / two32 + bh * cl + ch * bl + two32 * (bh * ch) := by
  have hm : 0 < two32 := by norm_num [two32]
  rw [prod_decomp, Nat.add_mul_div_left _ _ hm,
    Nat.div_eq_of_lt (Nat.mod_lt _ hm), Nat.zero_add]

theorem prod_mod (bl bh cl ch : Nat) :
    (bl + two32 * bh) * (cl + two32 * ch) % two32 = bl * cl % two32 := by
  rw [prod_decomp, Nat.add_mul_mod_self_left, Nat.mod_mod_of_dvd _ dvd_rfl]

/-- C1 counterexample: for `b = c = 2^16` (i.e. halves `bLo = cLo = 65536`,
`bHi = cHi = 0`), the emitted sequence stores 1 into `dest.hi`, but the
claim's formula `dest.hi = eax + t1 + t2` — with `eax` holding the low half
of the double-width product (which is also `dest.lo`) — yields 0.  The
adds in the emitted code target the register pair's high half `edx`
(`T_4Hi`), not `eax`. -/
theorem C1_counterexample :
    mulExec lowerMulI64Insts (mulInit 65536 0 65536 0) MulReg.destHi = 1 ∧
    (mulExec lowerMulI64Insts (mulInit 65536 0 65536 0) MulReg.destLo +
        mulExec lowerMulI64Insts (mulInit 65536 0 65536 0) MulReg.t1 +
        mulExec lowerMulI64Insts (mulInit 65536 0 65536 0) MulReg.t2) %
        two32 = 0 ∧
    mulExec lowerMulI64Insts (mulInit 65536 0 65536 0) MulReg.destHi ≠
      (mulExec lowerMulI64Insts (mulInit 65536 0 65536 0) MulReg.destLo +
        mulExec lowerMulI64Insts (mulInit 65536 0 65536 0) MulReg.t1 +
        mulExec lowerMulI64Insts (mulInit 65536 0 65536 0) MulReg.t2) %
        two32 := by
  refine ⟨by decide, by decide, by decide⟩

/-- C1 (amended): for every `i64` multiplication `a = b * c`, the sequence
emitted by `lowerArithmetic` computes `t1 = hi(b)·lo(c)`,
`t2 = hi(c)·lo(b)`, `edx:eax = lo(b)·lo(c)` via the double-width `mul`,
`dest.lo = eax`, and `dest.hi` is produced by adding `t1` and `t2` into
`edx` (`dest.hi = edx + t1 + t2`, all modulo `2^32`); consequently
`dest.lo` and `dest.hi` are exactly the low and high 32-bit halves of the
full 64-bit product `b · c`. -/
theorem C1_lowerArithmetic_mul_i64 (bl bh cl ch : Nat) :
    mulExec lowerMulI64Insts (mulInit bl bh cl ch) MulReg.t1 =
      bh * cl % two32 ∧
    mulExec lowerMulI64Insts (mulInit bl bh cl ch) MulReg.t2 =
      ch * bl % two32 ∧
    mulExec lowerMulI64Insts (mulInit bl bh cl ch) MulReg.destLo =
      bl * cl % two32 ∧
    mulExec lowerMulI64Insts (mulInit bl bh cl ch) MulReg.destHi =
      (bl * cl / two32 + bh * cl + ch * bl) % two32 ∧
    mulExec lowerMulI64Insts (mulInit bl bh cl ch) MulReg.destLo =
      (bl + two32 * bh) * (cl + two32 * ch) % two32 ∧
    mulExec lowerMulI64Insts (mulInit bl bh cl ch) MulReg.destHi =
      (bl + two32 * bh) * (cl + two32 * ch) / two32 % two32 := by
  refine ⟨?_, ?_, ?_, ?_, ?_, ?_⟩
  · simp [mulExec, lowerMulI64Insts, mulStep, mulInit, Function.update]
  · simp [mulExec, lowerMulI64Insts, mulStep, mulInit, Function.update]
  · simp [mulExec, lowerMulI64Insts, mulStep, mulInit, Function.update]
  · have h : mulExec lowerMulI64Insts (mulInit bl bh cl ch) MulReg.destHi =
        ((bl * cl / two32 % two32 + bh * cl % two32) % two32 +
          ch * bl % two32) % two32 := by
      simp [mulExec, lowerMulI64Insts, mulStep, mulInit, Function.update]
    rw [h, mod_add_chain]
  · rw [prod_mod]
    simp [mulExec, lowerMulI64Insts, mulStep, mulInit, Function.update]
  · rw [prod_div, Nat.add_mul_mod_self_left]
    have h : mulExec lowerMulI64Insts (mulInit bl bh cl ch) MulReg.destHi =
        ((bl * cl / two32 % two32 + bh * cl % two32) % two32 +
          ch * bl % two32) % two32 := by
      simp [mulExec, lowerMulI64Insts, mulStep, mulInit, Function.update]
    rw [h, mod_add_chain]

/-! Lowering of `v4i32` multiplication (claim C2).

`lowerArithmetic`, vector case `InstArithmetic::Mul` (lines 1422-1474):
for `v4i32`, `TypesAreValidForPmull` holds, and
`InstructionSetIsValidForPmull` holds iff the instruction set is at least
SSE4.1; with SSE4.1 the lowering is `movp T, Src0; pmull T, Src1;
movp Dest, T`, and with SSE2 only it is the `pmuludq`/`pshufd`/`shufps`
sequence of lines 1462-1469.  Vectors are modelled as `Nat → Nat` (only
lanes 0..3 are meaningful), with lane values taken modulo `2 ^ 32`. -/

/-- The instruction set options (`X86InstructionSet`). -/
inductive X86InstructionSet
  | SSE2
  | SSE4_1
  deriving DecidableEq, Repr

/-- A vector register value: lane `i` (0..3) holds a 32-bit value. -/
def Vec4 : Type := Nat → Nat

/-- The XMM registers used by the `v4i32` multiply lowering. -/
inductive VReg
  | src0
  | src1
  | t
  | t1
  | t2
  | t3
  | t4
  | dest
  deriving DecidableEq, Repr

/-- The packed pseudo-instructions used by the `v4i32` multiply lowering. -/
inductive VInst
  | movp (d s : VReg)
  | pshufd (d s : VReg) (mask : Nat)
  | pmuludq (d s : VReg)
  | shufps (d s : VReg) (mask : Nat)
  | pmull (d s : VReg)
  deriving DecidableEq, Repr

/-- Field `i` of an 8-bit shuffle mask: bits `2i+1 .. 2i`. -/
def maskField (mask i : Nat) : Nat := mask >>> (2 * i) % 4

/-- Semantics of `pmuludq`: the 64-bit products of the even lanes, laid out
as (lo, hi) pairs in lanes (0,1) and (2,3). -/
def pmuludqSem (a b : Vec4) : Vec4 := fun i =>
  if i = 0 then a 0 * b 0 % two32
  else if i = 1 then a 0 * b 0 / two32 % two32
  else if i = 2 then a 2 * b 2 % two32
  else if i = 3 then a 2 * b 2 / two32 % two32
  else 0

/-- x86 semantics of the packed pseudo-instructions.  `pshufd` selects each
destination lane from the source by the mask; `shufps` selects the two low
lanes from the destination and the two high lanes from the source;
`pmull` is the SSE4.1 lane-wise 32-bit multiply. -/
def vStep (st : VReg → Vec4) : VInst → (VReg → Vec4)
  | .movp d s => Function.update st d (st s)
  | .pshufd d s mask => Function.update st d (fun i => st s (maskField mask i))
  | .pmuludq d s => Function.update st d (pmuludqSem (st d) (st s))
  | .shufps d s mask => Function.update st d (fun i =>
      if i < 2 then st d (maskField mask i) else st s (maskField mask i))
  | .pmull d s => Function.update st d (fun i => st d i * st s i % two32)

/-- Execute a packed pseudo-instruction list from an initial state. -/
def vExec (l : List VInst) (st : VReg → Vec4) : VReg → Vec4 :=
  l.foldl vStep st

/-- Mirrors the SSE2-only emission (lines 1462-1469); the masks are
`Mask1030 = 0x31 = 49`, `Mask0202 = 0x88 = 136`, `Mask0213 = 0xd8 = 216`:
` _movp(T1, Src0); _pshufd(T2, Src0, 0x31); _pshufd(T3, Src1, 0x31);
  _pmuludq(T1, Src1); _pmuludq(T2, T3); _shufps(T1, T2, 0x88);
  _pshufd(T4, T1, 0xd8); _movp(Dest, T4);` -/
def mulV4i32SSE2Insts : List VInst :=
  [VInst.movp VReg.t1 VReg.src0,
   VInst.pshufd VReg.t2 VReg.src0 49,
   VInst.pshufd VReg.t3 VReg.src1 49,
   VInst.pmuludq VReg.t1 VReg.src1,
   VInst.pmuludq VReg.t2 VReg.t3,
   VInst.shufps VReg.t1 VReg.t2 136,
   VInst.pshufd VReg.t4 VReg.t1 216,
   VInst.movp VReg.dest VReg.t4]

/-- Mirrors the SSE4.1 emission (lines 1428-1431):
` _movp(T, Src0); _pmull(T, Src1); _movp(Dest, T);` -/
def mulV4i32SSE41Insts : List VInst :=
  [VInst.movp VReg.t VReg.src0,
   VInst.pmull VReg.t VReg.src1,
   VInst.movp VReg.dest VReg.t]

/-- Mirrors the dispatch of lines 1422-1432 for a `v4i32` destination:
`TypesAreValidForPmull` is true, and `InstructionSetIsValidForPmull`
reduces to `InstructionSet >= SSE4_1`. -/
def lowerMulV4i32Insts : X86InstructionSet → List VInst
  | .SSE4_1 => mulV4i32SSE41Insts
  | .SSE2 => mulV4i32SSE2Insts

/-- True for the multiply and shuffle instructions of the SSE2 sequence
(`pmuludq`, `pshufd`, `shufps`). -/
def isMulOrShuffle : VInst → Bool
  | .pshufd _ _ _ => true
  | .pmuludq _ _ => true
  | .shufps _ _ _ => true
  | _ => false

/-- True exactly for `pmull`. -/
def isPmull : VInst → Bool
  | .pmull _ _ => true
  | _ => false

/-- Initial state holding the two source vectors. -/
def vInit (a b : Vec4) : VReg → Vec4
  | .src0 => a
  | .src1 => b
  | _ => fun _ => 0

/-- C2 counterexample: the SSE2-only sequence emitted for a `v4i32`
multiply is not a four-instruction sequence: it consists of 8 emitted
pseudo-instructions, 6 of which are `pmuludq`/`pshufd`/`shufps` (the other
2 are register moves). -/
theorem C2_counterexample :
    (lowerMulV4i32Insts X86InstructionSet.SSE2).length = 8 ∧
    ((lowerMulV4i32Insts X86InstructionSet.SSE2).filter isMulOrShuffle).length
      = 6 ∧
    ((lowerMulV4i32Insts X86InstructionSet.SSE2).filter isMulOrShuffle).length
      ≠ 4 := by
  refine ⟨by decide, by decide, by decide⟩

/-- C2 (amended): for a `v4i32` integer multiply with SSE2 only, the
lowering emits an eight-instruction sequence — two `pmuludq`, three
`pshufd`, one `shufps` and two register moves — producing the full
32×32→low-32 product in each lane; with SSE4.1 it emits a single `pmull`
(plus two register moves) with the same lane-wise semantics. -/
theorem C2_lowerArithmetic_mul_v4i32 (iset : X86InstructionSet)
    (a b : Vec4) :
    (∀ i, i < 4 →
      vExec (lowerMulV4i32Insts iset) (vInit a b) VReg.dest i =
        a i * b i % two32) ∧
    ((lowerMulV4i32Insts X86InstructionSet.SSE2).filter isMulOrShuffle).length
      = 6 ∧
    (lowerMulV4i32Insts X86InstructionSet.SSE2).filter isPmull = [] ∧
    ((lowerMulV4i32Insts X86InstructionSet.SSE4_1).filter isPmull).length
      = 1 := by
  refine ⟨?_, by decide, by decide, by decide⟩
  intro i hi
  cases iset <;> interval_cases i <;>
    simp [vExec, lowerMulV4i32Insts, mulV4i32SSE2Insts, mulV4i32SSE41Insts,
      vStep, vInit, Function.update, maskField, pmuludqSem]

/-- Witness for C2 at lane 2 with concrete vectors `a = b = (0,1,2,3)`. -/
theorem C2_lowerArithmetic_mul_v4i32_witness :
    (2 : Nat) < 4 ∧
    vExec (lowerMulV4i32Insts X86InstructionSet.SSE2)
        (vInit (fun i => i) (fun i => i)) VReg.dest 2 =
      (fun i : Nat => i) 2 * (fun i : Nat => i) 2 % two32 :=
  ⟨by norm_num,
    (C2_lowerArithmetic_mul_v4i32 X86InstructionSet.SSE2
      (fun i => i) (fun i => i)).1 2 (by norm_num)⟩

/-! The IR type universe (`IceType`), shared by the remaining claims. -/

/-- The closed set of IR primitive types. -/
inductive Ty
  | void
  | i1
  | i8
  | i16
  | i32
  | i64
  | f32
  | f64
  | v4i1
  | v8i1
  | v16i1
  | v16i8
  | v8i16
  | v4i32
  | v4f32
  deriving DecidableEq, Repr

/-- Mirrors `isVectorType`. -/
def Ty.isVectorType : Ty → Bool
  | .v4i1 | .v8i1 | .v16i1 | .v16i8 | .v8i16 | .v4i32 | .v4f32 => true
  | _ => false

/-- Modelled from the spec: `typeWidthInBytesOnStack` (declared outside this
translation unit) rounds a type's width up to a 4-byte stack slot; vectors
occupy 16 bytes (spec section 4.6 and the call ABI of section 4.3). -/
def typeWidthInBytesOnStack : Ty → Nat
  | .void => 0
  | .i64 | .f64 => 8
  | .v4i1 | .v8i1 | .v16i1 | .v16i8 | .v8i16 | .v4i32 | .v4f32 => 16
  | _ => 4

/-! Call lowering (claim C3).

`lowerCall` (lines 1718-1910).  After argument classification the emission
order is: the pre-call stack adjustment, the stores of stack arguments,
the moves of the (at most four) vector arguments into `xmm0..xmm3` each
followed by a `FakeUse`, the call itself, then — when the destination has
type `i64` — a `FakeDef` of the high return register (line 1852), then —
when stack arguments were pushed — the post-call `add esp` (line 1858),
then the `FakeKill` of the caller-save registers (line 1867), then the
`FakeUse` keeping a side-effecting call live, then the moves of the return
registers into the destination. -/

/-- The pseudo-instructions emitted by `lowerCall`, at the granularity the
claim needs.  Stores and argument moves are summarized by one item each;
`fakeKill regs` carries the register numbers it references. -/
inductive CInst
  | adjustStack (n : Nat)
  | storeStackArg (idx : Nat)
  | movArgXmm (idx : Nat)
  | fakeUseXmm (idx : Nat)
  | call
  | fakeDefRetHi
  | addEsp (n : Nat)
  | fakeKill (regs : List Nat)
  | fakeUseRet
  | movRetToDest
  | movRetHiToDestHi
  | fstpDest
  | fakeUseDest
  deriving DecidableEq, Repr

/-- True exactly for the call pseudo-instruction. -/
def isCall : CInst → Bool
  | .call => true
  | _ => false

/-- True exactly for a `FakeKill` pseudo-instruction. -/
def isFakeKillInstr : CInst → Bool
  | .fakeKill _ => true
  | _ => false

/-- Mirrors the argument-classification loop of lines 1747-1765: walk the
arguments, sending the first four vector arguments to XMM registers and
the rest to the stack while accumulating `ParameterAreaSizeBytes`
(16-byte-aligning it before each vector stack argument).  Returns the XMM
argument indices, the stack argument indices, and the accumulated
parameter-area size. -/
def classifyCallArgs : List Ty → Nat → Nat → List Nat → List Nat → Nat →
    List Nat × List Nat × Nat
  | [], _, _, xs, ss, p => (xs.reverse, ss.reverse, p)
  | t :: rest, idx, nx, xs, ss, p =>
    if t.isVectorType && decide (nx < 4) then
      classifyCallArgs rest (idx + 1) (nx + 1) (idx :: xs) ss p
    else
      classifyCallArgs rest (idx + 1) nx xs (idx :: ss)
        ((if t.isVectorType then applyStackAlignment p else p) +
          typeWidthInBytesOnStack t)

/-- Whether `lowerCall` materializes a low return register (`ReturnReg`):
integer and vector destinations do; `void` and floating-point destinations
do not (the latter are captured with `fstp`), lines 1813-1844. -/
def hasReturnReg : Option Ty → Bool
  | none => false
  | some .void => false
  | some .f32 => false
  | some .f64 => false
  | some _ => true

/-- The destination-assignment tail of `lowerCall` (lines 1875-1909). -/
def callDestMoves : Option Ty → List CInst
  | none => []
  | some .void => []
  | some .i64 => [CInst.movRetToDest, CInst.movRetHiToDestHi]
  | some .f32 => [CInst.fstpDest, CInst.fakeUseDest]
  | some .f64 => [CInst.fstpDest, CInst.fakeUseDest]
  | some _ => [CInst.movRetToDest]

/-- The instructions emitted before the call instruction. -/
def callPreInsts (args : List Ty) : List CInst :=
  let c := classifyCallArgs args 0 0 [] [] 0
  let pArea := applyStackAlignment c.2.2
  (if pArea ≠ 0 then [CInst.adjustStack pArea] else []) ++
    c.2.1.map CInst.storeStackArg ++
    (c.1.map fun i => [CInst.movArgXmm i, CInst.fakeUseXmm i]).flatten

/-- The instructions emitted between the call and the `FakeKill`:
the `FakeDef` of the high return register for an `i64` destination
(line 1852) and the post-call `esp` adjustment (line 1858). -/
def callMidInsts (args : List Ty) (destTy : Option Ty) : List CInst :=
  let c := classifyCallArgs args 0 0 [] [] 0
  let pArea := applyStackAlignment c.2.2
  (if destTy = some Ty.i64 then [CInst.fakeDefRetHi] else []) ++
    (if pArea ≠ 0 then [CInst.addEsp pArea] else [])

/-- The instructions emitted after the `FakeKill` (lines 1869-1909). -/
def callPostInsts (destTy : Option Ty) (hasSideEffects : Bool) : List CInst :=
  (if hasSideEffects && hasReturnReg destTy then [CInst.fakeUseRet] else []) ++
    callDestMoves destTy

/-- Mirrors the full emission order of `lowerCall`: pre-call instructions,
the call, the intervening `FakeDef`/`add esp`, the `FakeKill` of every
caller-save register (`scratch`), and the post-call tail. -/
def lowerCallInsts (scratch : List Nat) (args : List Ty) (destTy : Option Ty)
    (hasSideEffects : Bool) : List CInst :=
  callPreInsts args ++ [CInst.call] ++ callMidInsts args destTy ++
    [CInst.fakeKill scratch] ++ callPostInsts destTy hasSideEffects

/-- The claim's adjacency property as a decidable check: every call in the
list is immediately followed by a `FakeKill`. -/
def callImmediatelyFollowedByKill : List CInst → Bool
  | [] => true
  | [x] => !isCall x
  | x :: y :: rest =>
    (!isCall x || isFakeKillInstr y) &&
      callImmediatelyFollowedByKill (y :: rest)

/-- C3 counterexample: for a call with no arguments, an `i64` destination
and no side effects, the emitted list is
`call; FakeDef(edx); FakeKill; mov DestLo, eax; mov DestHi, edx` — the
instruction immediately after the call is the `FakeDef` of the high return
register, not the `FakeKill`. -/
theorem C3_counterexample :
    lowerCallInsts [0, 2, 3] [] (some Ty.i64) false =
      [CInst.call, CInst.fakeDefRetHi, CInst.fakeKill [0, 2, 3],
        CInst.movRetToDest, CInst.movRetHiToDestHi] ∧
    callImmediatelyFollowedByKill
      (lowerCallInsts [0, 2, 3] [] (some Ty.i64) false) = false := by
  refine ⟨by decide, by decide⟩

/-- C3 (amended): for every lowered call, a `FakeKill` referencing all
caller-save (scratch) registers follows the emitted call instruction, and
the only instructions that may stand between them are the `FakeDef` of the
high return register (for an `i64` destination) and the post-call `esp`
adjustment; no other call or `FakeKill` appears in the emission. -/
theorem C3_lowerCall_fakeKill (scratch : List Nat) (args : List Ty)
    (destTy : Option Ty) (hasSideEffects : Bool) :
    ∃ pre mid post,
      lowerCallInsts scratch args destTy hasSideEffects =
        pre ++ [CInst.call] ++ mid ++ [CInst.fakeKill scratch] ++ post ∧
      (∀ x ∈ pre, isCall x = false ∧ isFakeKillInstr x = false) ∧
      (∀ x ∈ mid, x = CInst.fakeDefRetHi ∨ ∃ n, x = CInst.addEsp n) ∧
      (∀ x ∈ post, isCall x = false ∧ isFakeKillInstr x = false) := by
  refine ⟨callPreInsts args, callMidInsts args destTy,
    callPostInsts destTy hasSideEffects, rfl, ?_, ?_, ?_⟩
  · intro x hx
    unfold callPreInsts at hx
    rw [List.mem_append, List.mem_append] at hx
    rcases hx with (hx | hx) | hx
    · split at hx
      · fin_cases hx
        exact ⟨rfl, rfl⟩
      · cases hx
    · rw [List.mem_map] at hx
      obtain ⟨i, -, rfl⟩ := hx
      exact ⟨rfl, rfl⟩
    · rw [List.mem_flatten] at hx
      obtain ⟨l, hl, hxl⟩ := hx
      rw [List.mem_map] at hl
      obtain ⟨i, -, rfl⟩ := hl
      fin_cases hxl
      · exact ⟨rfl, rfl⟩
      · exact ⟨rfl, rfl⟩
  · intro x hx
    unfold callMidInsts at hx
    rw [List.mem_append] at hx
    rcases hx with hx | hx
    · split at hx
      · fin_cases hx
        exact Or.inl rfl
      · cases hx
    · split at hx
      · fin_cases hx
        exact Or.inr ⟨_, rfl⟩
      · cases hx
  · intro x hx
    unfold callPostInsts at hx
    rw [List.mem_append] at hx
    rcases hx with hx | hx
    · split at hx
      · fin_cases hx
        exact ⟨rfl, rfl⟩
      · cases hx
    · rcases destTy with _ | t
      · cases hx
      · cases t <;> simp only [callDestMoves] at hx <;> fin_cases hx <;>
          exact ⟨rfl, rfl⟩

/-! Operand model and legalization (claims C7 and C9).

`legalize` (lines 4118-4213) transforms an operand into a form admissible
for a machine instruction.  Variables carry an optional physical register
number and an allocation-weight flag; `copyToReg` (lines 4107-4116)
allocates a fresh register-class temporary via `makeReg` (lines 4239-4248,
which asserts the type is not `i64` and gives the temporary infinite
weight when no fixed register is requested). -/

/-- A Variable: a virtual register with a stable identity, a type, an
optional pre-assigned physical register and an infinite-weight flag
(`setWeightInfinite`). -/
structure Variable where
  id : Nat
  ty : Ty
  regNum : Option Nat
  weightInf : Bool
  deriving DecidableEq, Repr

/-- The constant kinds: integer, floating-point pool constant,
relocatable symbol, undef. -/
inductive ConstKind
  | intConst (v : Nat)
  | floatConst
  | reloc (sym off : Nat)
  | undef
  deriving DecidableEq, Repr

/-- The machine operand universe: Variable, Constant (with its type), or
Memory (`OperandX8632Mem`: base, index, shift, offset, segment). -/
inductive Operand
  | var (v : Variable)
  | const (ty : Ty) (k : ConstKind)
  | mem (ty : Ty) (base index : Option Variable) (shift : Nat)
      (offset : Option ConstKind) (seg : Nat)
  deriving DecidableEq, Repr

/-- The type of an operand. -/
def Operand.opTy : Operand → Ty
  | .var v => v.ty
  | .const t _ => t
  | .mem t _ _ _ _ _ => t

/-- The legalization mask `Allowed ⊆ {Reg, Mem, Imm, Reloc}`. -/
structure LegalMask where
  reg : Bool
  mem : Bool
  imm : Bool
  reloc : Bool
  deriving DecidableEq, Repr

/-- Mirrors `Legal_Reg`. -/
def legalReg : LegalMask := ⟨true, false, false, false⟩

/-- Mirrors `Legal_Reg | Legal_Mem`. -/
def legalRegMem : LegalMask := ⟨true, true, false, false⟩

/-- The pseudo-instructions legalization can emit: the move of an operand
into a fresh register temporary (`copyToReg`), and the
`FakeDef` + `pxor` pair of `makeVectorOfZeros` (lines 4044-4051). -/
inductive LInst
  | movToReg (destId : Nat) (src : Operand)
  | fakeDef (destId : Nat)
  | pxor (destId : Nat)
  deriving DecidableEq, Repr

/-- Mirrors `makeReg` (lines 4239-4248): refuses `i64` (the assert at line
4241 — there are no 64-bit integer registers on x86-32), creates a fresh
variable, and either pins the requested register or sets infinite weight.
The `Nat` argument is the fresh-variable counter. -/
def makeReg (ty : Ty) (regNum : Option Nat) (n : Nat) :
    Option (Variable × Nat) :=
  if ty = Ty.i64 then none
  else some (⟨n, ty, regNum, regNum.isNone⟩, n + 1)

/-- Mirrors `copyToReg` (lines 4107-4116): allocate a register temporary of
the operand's type and emit the move into it. -/
def copyToReg (src : Operand) (regNum : Option Nat) (n : Nat) :
    Option (Variable × List LInst × Nat) :=
  match makeReg src.opTy regNum n with
  | none => none
  | some (v, n') => some (v, [LInst.movToReg v.id src], n')

/-- Mirrors `makeVectorOfZeros` (lines 4044-4051): a fresh register
temporary defined by `FakeDef` and `pxor`. -/
def makeVectorOfZeros (ty : Ty) (n : Nat) :
    Option (Variable × List LInst × Nat) :=
  match makeReg ty none n with
  | none => none
  | some (v, n') => some (v, [LInst.fakeDef v.id, LInst.pxor v.id], n')

/-- The Variable branch of `legalize` (lines 4191-4210): a variable that is
guaranteed a physical register (pre-colored or infinite weight) satisfies
any mask that allows a register; otherwise it must be copied when memory
is not allowed or when a specific register is requested. -/
def legalizeVarBranch (v : Variable) (allowed : LegalMask)
    (regNum : Option Nat) (n : Nat) :
    Option (Variable × List LInst × Nat) :=
  if (!allowed.mem && !(v.regNum.isSome || v.weightInf)) ||
      (regNum.isSome && decide (regNum ≠ v.regNum)) then
    copyToReg (.var v) regNum n
  else
    some (v, [], n)

/-- Mirrors `getConstantZero` for the undef-lowering of scalar types
(line 4169): integer types get the zero integer constant, floating-point
types the zero pool constant. -/
def zeroConstKind : Ty → ConstKind
  | .f32 => ConstKind.floatConst
  | .f64 => ConstKind.floatConst
  | _ => ConstKind.intConst 0

/-- True for relocatable constants (`ConstantRelocatable`). -/
def ConstKind.isReloc : ConstKind → Bool
  | .reloc _ _ => true
  | _ => false

/-- The `NeedsReg` computation of the Constant branch (lines 4173-4185):
a register copy is needed when immediates are not allowed, when the
constant is relocatable and relocatables are not allowed, or when the
constant is floating-point and memory is not allowed (FP constants are
lowered to memory operands into the constant pool). -/
def constNeedsReg (ty : Ty) (k : ConstKind) (allowed : LegalMask) : Bool :=
  !allowed.imm || (!allowed.reloc && k.isReloc) ||
    (!allowed.mem && (decide (ty = Ty.f32) || decide (ty = Ty.f64)))

/-- The tail of the Memory branch (lines 4143-4152): rebuild the memory
operand over the legalized base and index, and copy the whole operand to a
register when memory is not allowed. -/
def legalizeMemTail (ty : Ty) (base index : Option Variable) (shift : Nat)
    (offset : Option ConstKind) (seg : Nat) (allowed : LegalMask)
    (regNum : Option Nat) (acc : List LInst) (n : Nat) :
    Option (Operand × List LInst × Nat) :=
  if !allowed.mem then
    match copyToReg (Operand.mem ty base index shift offset seg) regNum n with
    | none => none
    | some (v, is, n') => some (.var v, acc ++ is, n')
  else
    some (Operand.mem ty base index shift offset seg, acc, n)

/-- The tail of the Constant branch (lines 4173-4189): copy to a register
when `NeedsReg`, else return the constant unchanged. -/
def legalizeConstTail (ty : Ty) (k : ConstKind) (allowed : LegalMask)
    (regNum : Option Nat) (n : Nat) : Option (Operand × List LInst × Nat) :=
  if constNeedsReg ty k allowed then
    match copyToReg (.const ty k) regNum n with
    | none => none
    | some (v, is, n') => some (.var v, is, n')
  else
    some (.const ty k, [], n)

/-- Mirrors `legalize` (lines 4118-4213).  The two leading asserts (a
register must be allowed; a specific register forces `Allowed ==
Legal_Reg`) are modelled as `none`.  In the Memory branch the base and the
index are first legalized into registers via `legalizeToVar(·, true)`,
which for a Variable argument is exactly the Variable branch with the
`Legal_Reg` mask. -/
def legalize (op : Operand) (allowed : LegalMask) (regNum : Option Nat)
    (n : Nat) : Option (Operand × List LInst × Nat) :=
  if !allowed.reg then none
  else if regNum.isSome && decide (allowed ≠ legalReg) then none
  else
    match op with
    | .mem ty base index shift offset seg =>
      match base with
      | some b =>
        match legalizeVarBranch b legalReg none n with
        | none => none
        | some (rb, is1, n1) =>
          match index with
          | some ix =>
            match legalizeVarBranch ix legalReg none n1 with
            | none => none
            | some (ri, is2, n2) =>
              legalizeMemTail ty (some rb) (some ri) shift offset seg allowed
                regNum (is1 ++ is2) n2
          | none =>
            legalizeMemTail ty (some rb) none shift offset seg allowed regNum
              is1 n1
      | none =>
        match index with
        | some ix =>
          match legalizeVarBranch ix legalReg none n with
          | none => none
          | some (ri, is2, n2) =>
            legalizeMemTail ty none (some ri) shift offset seg allowed regNum
              is2 n2
        | none =>
          legalizeMemTail ty none none shift offset seg allowed regNum [] n
    | .const ty k =>
      match k with
      | .undef =>
        if ty.isVectorType then
          match makeVectorOfZeros ty n with
          | none => none
          | some (v, is, n') => some (.var v, is, n')
        else
          legalizeConstTail ty (zeroConstKind ty) allowed regNum n
      | _ =>
        if ty.isVectorType then none
        else legalizeConstTail ty k allowed regNum n
    | .var v =>
      match legalizeVarBranch v allowed regNum n with
      | none => none
      | some (v', is, n') => some (.var v', is, n')

/-- A variable that is guaranteed a physical register: pre-colored or
infinite weight (`MustHaveRegister`, lines 4195-4196). -/
def regGuaranteed (v : Variable) : Bool := v.regNum.isSome || v.weightInf

theorem legalizeVarBranch_of_guaranteed (v : Variable) (A : LegalMask)
    (m : Nat) (h : regGuaranteed v = true) :
    legalizeVarBranch v A none m = some (v, [], m) := by
  unfold legalizeVarBranch
  unfold regGuaranteed at h
  simp [h]

theorem copyToReg_guaranteed (src : Operand) (n : Nat) (v' : Variable)
    (is : List LInst) (n' : Nat) (h : copyToReg src none n = some (v', is, n')) :
    regGuaranteed v' = true := by
  unfold copyToReg makeReg at h
  by_cases hty : src.opTy = Ty.i64 <;> simp [hty] at h
  obtain ⟨hv, -, -⟩ := h
  subst hv
  rfl

theorem legalizeVarBranch_idem (v : Variable) (A : LegalMask) (n : Nat)
    (v' : Variable) (is : List LInst) (n' : Nat)
    (h : legalizeVarBranch v A none n = some (v', is, n')) (m : Nat) :
    legalizeVarBranch v' A none m = some (v', [], m) := by
  unfold legalizeVarBranch at h
  split at h
  · exact legalizeVarBranch_of_guaranteed v' A m
      (copyToReg_guaranteed (.var v) n v' is n' h)
  · rename_i hcond
    obtain ⟨hv, -, -⟩ : v = v' ∧ [] = is ∧ n = n' := by
      simpa using h
    subst hv
    unfold legalizeVarBranch
    rw [if_neg hcond]

theorem legalizeConstTail_idem (ty : Ty) (k : ConstKind) (A : LegalMask)
    (n : Nat) (r : Operand) (is : List LInst) (n' : Nat)
    (hAreg : A.reg = true) (hvec : ty.isVectorType = false)
    (hk : k ≠ ConstKind.undef)
    (h : legalizeConstTail ty k A none n = some (r, is, n')) (m : Nat) :
    legalize r A none m = some (r, [], m) := by
  unfold legalizeConstTail at h
  split at h
  · rcases hcr : copyToReg (.const ty k) none n with _ | ⟨v, is2, n2⟩ <;>
      rw [hcr] at h
    · cases h
    · obtain ⟨hr, -, -⟩ : Operand.var v = r ∧ is2 = is ∧ n2 = n' := by
        simpa using h
      subst hr
      unfold legalize
      simp only [hAreg, Bool.not_true, Bool.false_eq_true, if_false,
        Option.isSome_none, Bool.false_and, legalizeVarBranch_of_guaranteed v A
          m (copyToReg_guaranteed (.const ty k) n v is2 n2 hcr)]
  · rename_i hneeds
    obtain ⟨hr, -, -⟩ : Operand.const ty k = r ∧ ([] : List LInst) = is ∧
        n = n' := by
      simpa using h
    subst hr
    unfold legalize
    simp only [hAreg, Bool.not_true, Bool.false_eq_true, if_false,
      Option.isSome_none, Bool.false_and]
    match hkk : k with
    | .intConst v0 | .floatConst | .reloc s0 o0 =>
      simp only [hvec, Bool.false_eq_true, if_false]
      unfold legalizeConstTail
      rw [if_neg hneeds]
    | .undef => exact absurd rfl hk

theorem legalizeMemTail_idem (ty : Ty) (base index : Option Variable)
    (shift : Nat) (offset : Option ConstKind) (seg : Nat) (A : LegalMask)
    (acc : List LInst) (n : Nat) (r : Operand) (is : List LInst) (n' : Nat)
    (hAreg : A.reg = true)
    (hbase : ∀ b, base = some b →
      ∀ m, legalizeVarBranch b legalReg none m = some (b, [], m))
    (hindex : ∀ ix, index = some ix →
      ∀ m, legalizeVarBranch ix legalReg none m = some (ix, [], m))
    (h : legalizeMemTail ty base index shift offset seg A none acc n =
      some (r, is, n')) (m : Nat) :
    legalize r A none m = some (r, [], m) := by
  unfold legalizeMemTail at h
  split at h
  · rename_i hmem
    rcases hcr : copyToReg (Operand.mem ty base index shift offset seg) none n
        with _ | ⟨v, is2, n2⟩ <;> rw [hcr] at h
    · cases h
    · obtain ⟨hr, -, -⟩ : Operand.var v = r ∧ acc ++ is2 = is ∧ n2 = n' := by
        simpa using h
      subst hr
      unfold legalize
      simp only [hAreg, Bool.not_true, Bool.false_eq_true, if_false,
        Option.isSome_none, Bool.false_and,
        legalizeVarBranch_of_guaranteed v A m (copyToReg_guaranteed _ n v is2
          n2 hcr)]
  · rename_i hmem
    obtain ⟨hr, -, -⟩ : Operand.mem ty base index shift offset seg = r ∧
        acc = is ∧ n = n' := by
      simpa using h
    subst hr
    unfold legalize
    simp only [hAreg, Bool.not_true, Bool.false_eq_true, if_false,
      Option.isSome_none, Bool.false_and]
    rcases base with _ | b
    · rcases index with _ | ix
      · dsimp only
        unfold legalizeMemTail
        rw [if_neg hmem]
      · dsimp only
        rw [hindex ix rfl m]
        dsimp only
        unfold legalizeMemTail
        rw [if_neg hmem]
    · dsimp only
      rw [hbase b rfl m]
      dsimp only
      rcases index with _ | ix
      · dsimp only
        unfold legalizeMemTail
        rw [if_neg hmem]
      · dsimp only
        rw [hindex ix rfl m]
        dsimp only
        unfold legalizeMemTail
        rw [if_neg hmem]
        simp

/-- C7: `legalize` is idempotent operand-structurally: if
`legalize(op, A)` (with no fixed register requested) succeeds and returns
operand `r`, then legalizing `r` again under the same mask returns `r`
itself, emits no instructions, and allocates no fresh temporaries. -/
theorem C7_legalize_idempotent (op : Operand) (A : LegalMask) (n : Nat)
    (r : Operand) (is : List LInst) (n' : Nat)
    (h : legalize op A none n = some (r, is, n')) (m : Nat) :
    legalize r A none m = some (r, [], m) := by
  have hAreg : A.reg = true := by
    by_contra hc
    rw [Bool.not_eq_true] at hc
    unfold legalize at h
    rw [hc] at h
    simp at h
  unfold legalize at h
  simp only [hAreg, Bool.not_true, Bool.false_eq_true, if_false,
    Option.isSome_none, Bool.false_and] at h
  match op with
  | .var v =>
    dsimp only at h
    rcases hvb : legalizeVarBranch v A none n with _ | ⟨v', is0, n0⟩ <;>
      rw [hvb] at h
    · cases h
    · obtain ⟨hr, -, -⟩ : Operand.var v' = r ∧ is0 = is ∧ n0 = n' := by
        simpa using h
      subst hr
      unfold legalize
      simp only [hAreg, Bool.not_true, Bool.false_eq_true, if_false,
        Option.isSome_none, Bool.false_and,
        legalizeVarBranch_idem v A n v' is0 n0 hvb m]
  | .const ty k =>
    dsimp only at h
    match k with
    | .undef =>
      dsimp only at h
      by_cases hvec : ty.isVectorType = true
      · simp only [hvec, if_true] at h
        rcases hz : makeVectorOfZeros ty n with _ | ⟨v, is0, n0⟩ <;>
          rw [hz] at h
        · cases h
        · obtain ⟨hr, -, -⟩ : Operand.var v = r ∧ is0 = is ∧ n0 = n' := by
            simpa using h
          subst hr
          have hg : regGuaranteed v = true := by
            unfold makeVectorOfZeros makeReg at hz
            by_cases hty : ty = Ty.i64 <;> simp [hty] at hz
            obtain ⟨hv, -, -⟩ := hz
            subst hv
            rfl
          unfold legalize
          simp only [hAreg, Bool.not_true, Bool.false_eq_true, if_false,
            Option.isSome_none, Bool.false_and,
            legalizeVarBranch_of_guaranteed v A m hg]
      · rw [Bool.not_eq_true] at hvec
        simp only [hvec, Bool.false_eq_true, if_false] at h
        have hzk : zeroConstKind ty ≠ ConstKind.undef := by
          cases ty <;> simp [zeroConstKind]
        have hzany : ∀ t : Ty, (zeroConstKind t).isReloc = false := by
          intro t
          cases t <;> rfl
        exact legalizeConstTail_idem ty (zeroConstKind ty) A n r is n' hAreg
          hvec hzk h m
    | .intConst v0 =>
      dsimp only at h
      split at h
      · cases h
      · rename_i hvec
        rw [Bool.not_eq_true] at hvec
        exact legalizeConstTail_idem ty (ConstKind.intConst v0) A n r is n'
          hAreg hvec (by simp) h m
    | .floatConst =>
      dsimp only at h
      split at h
      · cases h
      · rename_i hvec
        rw [Bool.not_eq_true] at hvec
        exact legalizeConstTail_idem ty ConstKind.floatConst A n r is n'
          hAreg hvec (by simp) h m
    | .reloc s0 o0 =>
      dsimp only at h
      split at h
      · cases h
      · rename_i hvec
        rw [Bool.not_eq_true] at hvec
        exact legalizeConstTail_idem ty (ConstKind.reloc s0 o0) A n r is n'
          hAreg hvec (by simp) h m
  | .mem ty base index shift offset seg =>
    dsimp only at h
    rcases base with _ | b
    · rcases index with _ | ix
      · dsimp only at h
        exact legalizeMemTail_idem ty none none shift offset seg A [] n r is
          n' hAreg (by intro b hb; cases hb) (by intro ix hix; cases hix) h m
      · dsimp only at h
        rcases hvb : legalizeVarBranch ix legalReg none n
            with _ | ⟨ri, is2, n2⟩ <;> rw [hvb] at h
        · cases h
        · exact legalizeMemTail_idem ty none (some ri) shift offset seg A is2
            n2 r is n' hAreg (by intro b hb; cases hb)
            (by
              intro ix' hix m'
              obtain hx : ri = ix' := by
                simpa using hix
              subst hx
              exact legalizeVarBranch_idem ix legalReg n ri is2 n2 hvb m') h m
    · dsimp only at h
      rcases hvb : legalizeVarBranch b legalReg none n
          with _ | ⟨rb, is1, n1⟩ <;> rw [hvb] at h
      · cases h
      · rcases index with _ | ix
        · dsimp only at h
          exact legalizeMemTail_idem ty (some rb) none shift offset seg A is1
            n1 r is n' hAreg
            (by
              intro b' hb m'
              obtain hx : rb = b' := by
                simpa using hb
              subst hx
              exact legalizeVarBranch_idem b legalReg n rb is1 n1 hvb m')
            (by intro ix hix; cases hix) h m
        · dsimp only at h
          rcases hvb2 : legalizeVarBranch ix legalReg none n1
              with _ | ⟨ri, is2, n2⟩ <;> rw [hvb2] at h
          · cases h
          · exact legalizeMemTail_idem ty (some rb) (some ri) shift offset seg
              A (is1 ++ is2) n2 r is n' hAreg
              (by
                intro b' hb m'
                obtain hx : rb = b' := by
                  simpa using hb
                subst hx
                exact legalizeVarBranch_idem b legalReg n rb is1 n1 hvb m')
              (by
                intro ix' hix m'
                obtain hx : ri = ix' := by
                  simpa using hix
                subst hx
                exact legalizeVarBranch_idem ix legalReg n1 ri is2 n2 hvb2 m')
              h m

/-- Witness for C7: legalizing a plain non-register variable of type `i32`
under `Legal_Reg | Legal_Mem` returns it unchanged, and a second
legalization is the identity. -/
theorem C7_legalize_idempotent_witness :
    legalize (Operand.var ⟨7, Ty.i32, none, false⟩) legalRegMem none 10 =
      some (Operand.var ⟨7, Ty.i32, none, false⟩, [], 10) ∧
    legalize (Operand.var ⟨7, Ty.i32, none, false⟩) legalRegMem none 11 =
      some (Operand.var ⟨7, Ty.i32, none, false⟩, [], 11) :=
  ⟨by decide,
    C7_legalize_idempotent (Operand.var ⟨7, Ty.i32, none, false⟩) legalRegMem
      10 (Operand.var ⟨7, Ty.i32, none, false⟩) [] 10 (by decide) 11⟩

/-! Switch lowering (claim C9).

`lowerSwitch` (lines 3954-3973): legalize the comparison operand (to a
register variable when there are at least two cases, else to
register-or-memory), then emit one `cmp` and one `je` per case in case
order, and a trailing `jmp` to the default label. -/

/-- Mirrors `legalizeToVar` (lines 4216-4219): legalize with the
register-only mask and cast the result to a Variable. -/
def legalizeToVar (op : Operand) (n : Nat) :
    Option (Variable × List LInst × Nat) :=
  match legalize op legalReg none n with
  | some (.var v, is, n') => some (v, is, n')
  | _ => none

/-- The pseudo-instructions emitted by `lowerSwitch`: legalization moves,
then `cmp`/`je` per case, then the default `jmp`. -/
inductive SwInst
  | legal (i : LInst)
  | cmp (value : Nat)
  | je (caseIdx : Nat)
  | jmp
  deriving DecidableEq, Repr

/-- The per-case `cmp`/`je` pairs, in case order (lines 3965-3970). -/
def switchCaseInsts : List Nat → Nat → List SwInst
  | [], _ => []
  | v :: rest, i => SwInst.cmp v :: SwInst.je i :: switchCaseInsts rest (i + 1)

/-- The legalization step of `lowerSwitch` (lines 3959-3964): `Src0` is
forced into a physical register when there are 2 or more cases, else
legalized to register-or-memory. -/
def switchLegalize (src0 : Operand) (numCases n : Nat) :
    Option (Operand × List LInst × Nat) :=
  if 2 ≤ numCases then
    match legalizeToVar src0 n with
    | none => none
    | some (v, is, n') => some (Operand.var v, is, n')
  else legalize src0 legalRegMem none n

/-- Mirrors `lowerSwitch` (lines 3954-3973): legalize the comparison
operand, then emit the linear `cmp/je` chain and the trailing default
`jmp`. -/
def lowerSwitchInsts (src0 : Operand) (cases : List Nat) (n : Nat) :
    Option (List SwInst × Nat) :=
  match switchLegalize src0 cases.length n with
  | none => none
  | some (_, is, n') =>
    some (is.map SwInst.legal ++ switchCaseInsts cases 0 ++ [SwInst.jmp], n')

/-- C9 counterexample: a switch with zero cases over an integer-constant
comparison operand emits two instructions — the legalization move of the
constant into a register (an immediate is not admissible under
`Legal_Reg | Legal_Mem`) followed by the default `jmp` — not a single
`jmp`. -/
theorem C9_counterexample :
    lowerSwitchInsts (Operand.const Ty.i32 (ConstKind.intConst 0)) [] 5 =
      some ([SwInst.legal (LInst.movToReg 5
        (Operand.const Ty.i32 (ConstKind.intConst 0))), SwInst.jmp], 6) ∧
    ([SwInst.legal (LInst.movToReg 5
        (Operand.const Ty.i32 (ConstKind.intConst 0))), SwInst.jmp] :
      List SwInst).length = 2 := by
  refine ⟨by decide, by decide⟩

/-- C9 (amended): the emission of `lowerSwitch` is always the legalization
moves of the comparison operand, followed by one `cmp` and one `je` per
case in case order, followed by the default `jmp` last; in particular a
zero-case switch over an operand that is already legal for
register-or-memory (e.g. any variable) emits exactly the single `jmp` to
the default label. -/
theorem C9_lowerSwitch_shape (src0 : Operand) (cases : List Nat) (n : Nat) :
    (∀ l n', lowerSwitchInsts src0 cases n = some (l, n') →
      ∃ movs : List LInst, l = List.map SwInst.legal movs ++
        switchCaseInsts cases 0 ++ [SwInst.jmp]) ∧
    (∀ v, src0 = Operand.var v →
      lowerSwitchInsts src0 [] n = some ([SwInst.jmp], n)) := by
  constructor
  · intro l n' h
    unfold lowerSwitchInsts at h
    rcases hleg : switchLegalize src0 cases.length n
        with _ | ⟨o, is, n2⟩ <;> rw [hleg] at h
    · cases h
    · obtain ⟨hl, -⟩ : is.map SwInst.legal ++ switchCaseInsts cases 0 ++
          [SwInst.jmp] = l ∧ n2 = n' := by
        simpa using h
      exact ⟨is, hl.symm⟩
  · intro v hv
    subst hv
    unfold lowerSwitchInsts switchLegalize
    simp only [List.length_nil]
    norm_num
    unfold legalize
    simp [legalizeVarBranch, legalRegMem, switchCaseInsts]

/-- Witness for C9: a zero-case switch over a plain variable emits exactly
the default `jmp`, and the general shape holds for a two-case switch. -/
theorem C9_lowerSwitch_shape_witness :
    lowerSwitchInsts (Operand.var ⟨3, Ty.i32, none, false⟩) [] 4 =
      some ([SwInst.jmp], 4) ∧
    (∃ movs : List LInst,
      [SwInst.legal (LInst.movToReg 4 (Operand.var ⟨3, Ty.i32, none, false⟩)),
          SwInst.cmp 10, SwInst.je 0, SwInst.cmp 20, SwInst.je 1, SwInst.jmp] =
        List.map SwInst.legal movs ++ switchCaseInsts [10, 20] 0 ++
          [SwInst.jmp]) :=
  ⟨(C9_lowerSwitch_shape (Operand.var ⟨3, Ty.i32, none, false⟩) [] 4).2
      ⟨3, Ty.i32, none, false⟩ rfl,
    (C9_lowerSwitch_shape (Operand.var ⟨3, Ty.i32, none, false⟩) [10, 20]
        4).1 _ 5 (by decide)⟩

/-! Integer-compare lowering and the compare/branch fusion peephole
(claim C5).

`lowerIcmp` (lines 2533-2714).  The fusion check (lines 2651-2664)
requires: the next instruction is a branch, the branch is conditional, its
condition operand is the compare's destination and this is the
destination's last use, and additionally the compare operand type is not
`i64` (the code carries `TODO: implement this optimization for i64`).
When it fires, exactly one `cmp` and one conditional branch are emitted
and the branch instruction is marked deleted.  Otherwise the `i64` path
(lines 2669-2702) or the scalar materialization path (lines 2704-2713)
runs.  The model tracks the emitted instruction templates; the moves that
operand legalization may emit target fresh temporaries (see `copyToReg`)
and are omitted here.  The vector path (lines 2538-2633) returns before
the fusion check and is out of the model's scope (`none`). -/

/-- The IR icmp predicates (`InstIcmp::ICond`). -/
inductive ICond
  | ieq
  | ine
  | ugt
  | uge
  | ult
  | ule
  | sgt
  | sge
  | slt
  | sle
  deriving DecidableEq, Repr

/-- The instruction templates emitted by scalar `lowerIcmp`: compare,
conditional branch, materialization `_mov(Dest, 0/1)`, `FakeUse(Dest)`,
and in-block label. -/
inductive IcmpEmit
  | cmp
  | jcc
  | movDest (v : Nat)
  | fakeUseDest
  | label
  deriving DecidableEq, Repr

/-- Mirrors the emission templates of `lowerIcmp` for non-vector operand
types (vector destinations take the packed-compare path before the fusion
check and are modelled as `none`).  Returns the emitted templates and
whether the following branch was marked deleted (`NextBr->setDeleted()`,
line 2654). -/
def lowerIcmpInsts (cond : ICond) (srcTy : Ty)
    (nextIsCondBr brSrcIsDest brLastUse : Bool) :
    Option (List IcmpEmit × Bool) :=
  if srcTy.isVectorType then none
  else if nextIsCondBr && brSrcIsDest && brLastUse &&
      decide (srcTy ≠ Ty.i64) then
    some ([IcmpEmit.cmp, IcmpEmit.jcc], true)
  else if srcTy = Ty.i64 then
    if cond = ICond.ieq || cond = ICond.ine then
      some ([IcmpEmit.movDest 0, IcmpEmit.cmp, IcmpEmit.jcc, IcmpEmit.cmp,
        IcmpEmit.jcc, IcmpEmit.fakeUseDest, IcmpEmit.movDest 1,
        IcmpEmit.label], false)
    else
      some ([IcmpEmit.movDest 1, IcmpEmit.cmp, IcmpEmit.jcc, IcmpEmit.jcc,
        IcmpEmit.cmp, IcmpEmit.jcc, IcmpEmit.label, IcmpEmit.fakeUseDest,
        IcmpEmit.movDest 0, IcmpEmit.label], false)
  else
    some ([IcmpEmit.cmp, IcmpEmit.movDest 1, IcmpEmit.jcc,
      IcmpEmit.fakeUseDest, IcmpEmit.movDest 0, IcmpEmit.label], false)

/-- True exactly for a `cmp` template. -/
def isCmpEmit : IcmpEmit → Bool
  | .cmp => true
  | _ => false

/-- True exactly for a conditional-branch template. -/
def isJccEmit : IcmpEmit → Bool
  | .jcc => true
  | _ => false

/-- True exactly for a materialization of a boolean into the destination. -/
def isMovDestEmit : IcmpEmit → Bool
  | .movDest _ => true
  | _ => false

/-- C5 counterexample: an `i64` `icmp eq` immediately followed by a
conditional branch on its destination (the destination's last use) is not
fused: the branch is not marked deleted, two `cmp`s are emitted, and the
boolean is materialized into the destination (the code skips the peephole
for `i64`). -/
theorem C5_counterexample :
    lowerIcmpInsts ICond.ieq Ty.i64 true true true =
      some ([IcmpEmit.movDest 0, IcmpEmit.cmp, IcmpEmit.jcc, IcmpEmit.cmp,
        IcmpEmit.jcc, IcmpEmit.fakeUseDest, IcmpEmit.movDest 1,
        IcmpEmit.label], false) ∧
    (([IcmpEmit.movDest 0, IcmpEmit.cmp, IcmpEmit.jcc, IcmpEmit.cmp,
        IcmpEmit.jcc, IcmpEmit.fakeUseDest, IcmpEmit.movDest 1,
        IcmpEmit.label].filter isCmpEmit).length = 2) ∧
    (([IcmpEmit.movDest 0, IcmpEmit.cmp, IcmpEmit.jcc, IcmpEmit.cmp,
        IcmpEmit.jcc, IcmpEmit.fakeUseDest, IcmpEmit.movDest 1,
        IcmpEmit.label].filter isMovDestEmit).length = 2) := by
  refine ⟨by decide, by decide, by decide⟩

/-- C5 (amended): whenever an `icmp` over a non-`i64` (and non-vector)
operand type is immediately followed by a conditional branch whose
condition operand is the compare's destination and that branch is the
destination's last use, the lowering fuses them: it emits exactly one
`cmp` and one conditional branch, materializes no boolean into the
destination, and marks the fused branch instruction deleted. -/
theorem C5_lowerIcmp_fusion (cond : ICond) (srcTy : Ty)
    (hvec : srcTy.isVectorType = false) (hty : srcTy ≠ Ty.i64) :
    lowerIcmpInsts cond srcTy true true true =
      some ([IcmpEmit.cmp, IcmpEmit.jcc], true) ∧
    ∀ l deleted, lowerIcmpInsts cond srcTy true true true =
        some (l, deleted) →
      (l.filter isCmpEmit).length = 1 ∧ (l.filter isJccEmit).length = 1 ∧
        l.filter isMovDestEmit = [] ∧ deleted = true := by
  have h0 : lowerIcmpInsts cond srcTy true true true =
      some ([IcmpEmit.cmp, IcmpEmit.jcc], true) := by
    unfold lowerIcmpInsts
    rw [if_neg (by rw [hvec]; exact Bool.false_ne_true), if_pos]
    simp [hty]
  refine ⟨h0, ?_⟩
  intro l deleted h
  rw [h0, Option.some.injEq, Prod.mk.injEq] at h
  obtain ⟨hl, hd⟩ := h
  rw [← hl, ← hd]
  refine ⟨by decide, by decide, by decide, by decide⟩

/-- Witness for C5 at `icmp eq i32` with the fusion trigger present. -/
theorem C5_lowerIcmp_fusion_witness :
    Ty.isVectorType Ty.i32 = false ∧ Ty.i32 ≠ Ty.i64 ∧
    lowerIcmpInsts ICond.ieq Ty.i32 true true true =
      some ([IcmpEmit.cmp, IcmpEmit.jcc], true) :=
  ⟨by decide, by decide,
    (C5_lowerIcmp_fusion ICond.ieq Ty.i32 (by decide) (by decide)).1⟩

/-! Error handling for user IR violations (claim C8).

Each fallible lowering is modelled as `Except String (List emitted)`:
`Except.error msg` models `Func->setError(msg); return;` with nothing
emitted — in every cited code path the check precedes all emission.
`Intrinsics::VerifyMemoryOrder` is declared outside this translation unit,
so its verdict is passed in as a `Bool`. -/

/-- The cast kinds of `InstCast::OpKind`; `unknownCast` stands for a value
outside the defined enumeration, which reaches the `default:` arm of the
switch in `lowerCast` (lines 1916-1919). -/
inductive CastOp
  | sext
  | zext
  | trunc
  | fptrunc
  | fpext
  | fptosi
  | fptoui
  | sitofp
  | uitofp
  | bitcast
  | unknownCast
  deriving DecidableEq, Repr

/-- Summary alphabet for the emissions of the modelled error-checking
lowerings; `otherLowering` summarizes a successful lowering's emission
(its exact content is out of this claim's scope). -/
inductive ErrEmit
  | mfence
  | movDestResult (v : Nat)
  | otherLowering
  deriving DecidableEq, Repr

/-- Mirrors `lowerPhi` (lines 3779-3781): always an error, nothing
emitted. -/
def lowerPhiModel : Except String (List ErrEmit) :=
  Except.error "Phi found in regular instruction list"

/-- Mirrors the dispatch skeleton of `lowerCast` (lines 1912-1919): the
`default:` arm sets the error before anything is emitted. -/
def lowerCastModel : CastOp → Except String (List ErrEmit)
  | .unknownCast => Except.error "Cast type not supported"
  | _ => Except.ok [ErrEmit.otherLowering]

/-- Mirrors the memory-order checks of `AtomicCmpxchg` (lines 2842-2852):
both the success and the failure ordering are verified before any
emission. -/
def lowerAtomicCmpxchgModel (orderSuccessOk orderFailureOk : Bool) :
    Except String (List ErrEmit) :=
  if !orderSuccessOk then
    Except.error "Unexpected memory ordering (success) for AtomicCmpxchg"
  else if !orderFailureOk then
    Except.error "Unexpected memory ordering (failure) for AtomicCmpxchg"
  else Except.ok [ErrEmit.otherLowering]

/-- Mirrors `AtomicFence` (lines 2862-2869). -/
def lowerAtomicFenceModel (orderOk : Bool) : Except String (List ErrEmit) :=
  if !orderOk then Except.error "Unexpected memory ordering for AtomicFence"
  else Except.ok [ErrEmit.mfence]

/-- Mirrors the order check of `AtomicLoad` (lines 2909-2913). -/
def lowerAtomicLoadModel (orderOk : Bool) : Except String (List ErrEmit) :=
  if !orderOk then Except.error "Unexpected memory ordering for AtomicLoad"
  else Except.ok [ErrEmit.otherLowering]

/-- Mirrors the order check of `AtomicRMW` (lines 2941-2946). -/
def lowerAtomicRMWModel (orderOk : Bool) : Except String (List ErrEmit) :=
  if !orderOk then Except.error "Unexpected memory ordering for AtomicRMW"
  else Except.ok [ErrEmit.otherLowering]

/-- Mirrors the order check of `AtomicStore` (lines 2952-2957). -/
def lowerAtomicStoreModel (orderOk : Bool) : Except String (List ErrEmit) :=
  if !orderOk then Except.error "Unexpected memory ordering for AtomicStore"
  else Except.ok [ErrEmit.otherLowering]

/-- Mirrors `AtomicIsLockFree` (lines 2876-2905): a compile-time constant
byte size is folded to 1 for sizes 1/2/4/8 and 0 otherwise; a
non-constant byte size is a user IR violation. -/
def lowerAtomicIsLockFreeModel (byteSize : Operand) :
    Except String (List ErrEmit) :=
  match byteSize with
  | .const _ (.intConst v) =>
    Except.ok [ErrEmit.movDestResult
      (if v = 1 || v = 2 || v = 4 || v = 8 then 1 else 0)]
  | _ => Except.error "AtomicIsLockFree byte size should be compile-time const"

/-- C8: for every modelled user IR violation — a phi in the regular
instruction list, an unsupported cast kind, a rejected memory-ordering
argument to any atomic intrinsic, or a non-constant byte size to
`AtomicIsLockFree` — the lowering sets the function's error state with a
human-readable message and emits no pseudo-instructions for that
instruction (the `Except.error` result carries no emission). -/
theorem C8_user_ir_violation_errors :
    lowerPhiModel = Except.error "Phi found in regular instruction list" ∧
    lowerCastModel CastOp.unknownCast =
      Except.error "Cast type not supported" ∧
    (∀ f, lowerAtomicCmpxchgModel false f =
      Except.error
        "Unexpected memory ordering (success) for AtomicCmpxchg") ∧
    lowerAtomicCmpxchgModel true false =
      Except.error "Unexpected memory ordering (failure) for AtomicCmpxchg" ∧
    lowerAtomicFenceModel false =
      Except.error "Unexpected memory ordering for AtomicFence" ∧
    lowerAtomicLoadModel false =
      Except.error "Unexpected memory ordering for AtomicLoad" ∧
    lowerAtomicRMWModel false =
      Except.error "Unexpected memory ordering for AtomicRMW" ∧
    lowerAtomicStoreModel false =
      Except.error "Unexpected memory ordering for AtomicStore" ∧
    (∀ op : Operand, (∀ ty v, op ≠ Operand.const ty (ConstKind.intConst v)) →
      lowerAtomicIsLockFreeModel op =
        Except.error
          "AtomicIsLockFree byte size should be compile-time const") := by
  refine ⟨rfl, rfl, ?_, rfl, rfl, rfl, rfl, rfl, ?_⟩
  · intro f
    rfl
  · intro op hop
    match op with
    | .var v => rfl
    | .mem ty b ix sh off seg => rfl
    | .const ty k =>
      match k with
      | .intConst v => exact absurd rfl (hop ty v)
      | .floatConst => rfl
      | .reloc s o => rfl
      | .undef => rfl

/-- Witness for C8 with the non-constant byte size instantiated at a
variable operand. -/
theorem C8_user_ir_violation_errors_witness :
    lowerAtomicIsLockFreeModel (Operand.var ⟨1, Ty.i32, none, false⟩) =
      Except.error "AtomicIsLockFree byte size should be compile-time const" :=
  C8_user_ir_violation_errors.2.2.2.2.2.2.2.2
    (Operand.var ⟨1, Ty.i32, none, false⟩) (by intro ty v h; cases h)

/-! Variables of type `i64`: splitting and register assignment (claim C6).

The operations this translation unit performs on variables are modelled
as a state machine over a list of variables (the index is the variable's
id): `Cfg::makeVariable` (fresh variable, used throughout lowering),
`makeReg` (lines 4239-4248, which asserts the type is not `i64`),
`getPhysicalRegister` (lines 455-465, an `i32` variable pinned to a
register), the vector home-register argument of `lowerArguments`
(lines 536-539), `split64` (lines 999-1026), the `lo`/`hi` accesses of
`loOperand`/`hiOperand` (lines 1028-1078, which invoke `split64` first and
assert the type is `i64`), and the register assignment of `postLower`
(lines 4331-4339, which colors only infinite-weight variables without a
register).  These are the only places in the file that create variables,
set a register number, or set the `lo`/`hi` pair. -/

/-- The modelled state of one Variable. -/
structure TVar where
  ty : Ty
  regNum : Option Nat
  weightInf : Bool
  split : Bool
  accessed : Bool
  deriving DecidableEq, Repr

/-- A freshly created variable: no register, finite weight, not split. -/
def freshVar (ty : Ty) : TVar := ⟨ty, none, false, false, false⟩

/-- The variable-mutating operations of this translation unit. -/
inductive VarOp
  | makeVariableOp (ty : Ty)
  | makeRegOp (ty : Ty) (regNum : Option Nat)
  | getPhysicalRegisterOp (r : Nat)
  | xmmHomeRegOp (ty : Ty) (r : Nat)
  | split64Op (v : Nat)
  | accessLoHiOp (v : Nat)
  | postLowerAssignOp (v : Nat) (r : Nat)
  deriving DecidableEq, Repr

/-- One step of the variable state machine; `none` models a violated
assert. -/
def varStep (vars : List TVar) : VarOp → Option (List TVar)
  | .makeVariableOp ty => some (vars ++ [freshVar ty])
  | .makeRegOp ty r =>
    if ty = Ty.i64 then none
    else some (vars ++ [⟨ty, r, r.isNone, false, false⟩])
  | .getPhysicalRegisterOp r =>
    some (vars ++ [⟨Ty.i32, some r, false, false, false⟩])
  | .xmmHomeRegOp ty r =>
    if ty.isVectorType then
      some (vars ++ [⟨ty, some r, false, false, false⟩])
    else none
  | .split64Op v =>
    match vars[v]? with
    | none => none
    | some tv =>
      if tv.ty = Ty.i64 || tv.ty = Ty.f64 then
        if tv.split then some vars
        else
          some (vars.set v { tv with split := true } ++
            [freshVar Ty.i32, freshVar Ty.i32])
      else some vars
  | .accessLoHiOp v =>
    match vars[v]? with
    | none => none
    | some tv =>
      if tv.ty = Ty.i64 then
        if tv.split then
          some (vars.set v { tv with accessed := true })
        else
          some (vars.set v { tv with split := true, accessed := true } ++
            [freshVar Ty.i32, freshVar Ty.i32])
      else none
  | .postLowerAssignOp v r =>
    match vars[v]? with
    | none => none
    | some tv =>
      if !tv.regNum.isSome && tv.weightInf then
        some (vars.set v { tv with regNum := some r })
      else none

/-- Run a sequence of variable operations. -/
def runVarOps : List VarOp → List TVar → Option (List TVar)
  | [], vars => some vars
  | op :: rest, vars =>
    match varStep vars op with
    | none => none
    | some vars' => runVarOps rest vars'

/-- The inductive invariant: an `i64` variable never holds a register,
never has infinite weight, and is split once it has been accessed through
`lo`/`hi`. -/
def i64Invariant (vars : List TVar) : Prop :=
  ∀ tv ∈ vars, tv.ty = Ty.i64 →
    tv.regNum = none ∧ tv.weightInf = false ∧
      (tv.accessed = true → tv.split = true)

theorem varStep_preserves_i64Invariant (vars vars' : List TVar) (op : VarOp)
    (hinv : i64Invariant vars) (h : varStep vars op = some vars') :
    i64Invariant vars' := by
  intro tv htv hty
  cases op with
  | makeVariableOp ty =>
    have hv : vars ++ [freshVar ty] = vars' := by simpa [varStep] using h
    subst hv
    rcases List.mem_append.1 htv with hm | hm
    · exact hinv tv hm hty
    · rw [List.mem_singleton] at hm
      subst hm
      exact ⟨rfl, rfl, by intro hacc; cases hacc⟩
  | makeRegOp ty r =>
    simp only [varStep] at h
    split at h
    · cases h
    · rename_i hne
      have hv : vars ++ [⟨ty, r, r.isNone, false, false⟩] = vars' := by
        simpa using h
      subst hv
      rcases List.mem_append.1 htv with hm | hm
      · exact hinv tv hm hty
      · rw [List.mem_singleton] at hm
        subst hm
        exact absurd hty hne
  | getPhysicalRegisterOp r =>
    have hv : vars ++ [⟨Ty.i32, some r, false, false, false⟩] = vars' := by
      simpa [varStep] using h
    subst hv
    rcases List.mem_append.1 htv with hm | hm
    · exact hinv tv hm hty
    · rw [List.mem_singleton] at hm
      subst hm
      cases hty
  | xmmHomeRegOp ty r =>
    simp only [varStep] at h
    split at h
    · rename_i hvec
      have hv : vars ++ [⟨ty, some r, false, false, false⟩] = vars' := by
        simpa using h
      subst hv
      rcases List.mem_append.1 htv with hm | hm
      · exact hinv tv hm hty
      · rw [List.mem_singleton] at hm
        subst hm
        have hv64 : ty = Ty.i64 := hty
        rw [hv64] at hvec
        exact absurd hvec (by decide)
    · cases h
  | split64Op v =>
    simp only [varStep] at h
    rcases hget : vars[v]? with _ | tv0 <;> rw [hget] at h
    · cases h
    · dsimp only at h
      split at h
      · split at h
        · have hv : vars = vars' := by simpa using h
          subst hv
          exact hinv tv htv hty
        · have hv : vars.set v { tv0 with split := true } ++
              [freshVar Ty.i32, freshVar Ty.i32] = vars' := by
            simpa using h
          subst hv
          rcases List.mem_append.1 htv with hm | hm
          · rcases List.mem_or_eq_of_mem_set hm with hm2 | hm2
            · exact hinv tv hm2 hty
            · subst hm2
              have h0 := hinv tv0 (List.getElem?_mem hget) (by
                simpa using hty)
              exact ⟨h0.1, h0.2.1, by intro _; rfl⟩
          · fin_cases hm <;> cases hty
      · have hv : vars = vars' := by simpa using h
        subst hv
        exact hinv tv htv hty
  | accessLoHiOp v =>
    simp only [varStep] at h
    rcases hget : vars[v]? with _ | tv0 <;> rw [hget] at h
    · cases h
    · dsimp only at h
      split at h
      · rename_i hty0
        split at h
        · rename_i hsplit
          have hv : vars.set v { tv0 with accessed := true } = vars' := by
            simpa using h
          subst hv
          rcases List.mem_or_eq_of_mem_set htv with hm | hm
          · exact hinv tv hm hty
          · subst hm
            have h0 := hinv tv0 (List.getElem?_mem hget) hty0
            exact ⟨h0.1, h0.2.1, by intro _; exact hsplit⟩
        · have hv : vars.set v
              { tv0 with split := true, accessed := true } ++
              [freshVar Ty.i32, freshVar Ty.i32] = vars' := by
            simpa using h
          subst hv
          rcases List.mem_append.1 htv with hm | hm
          · rcases List.mem_or_eq_of_mem_set hm with hm2 | hm2
            · exact hinv tv hm2 hty
            · subst hm2
              have h0 := hinv tv0 (List.getElem?_mem hget) hty0
              exact ⟨h0.1, h0.2.1, by intro _; rfl⟩
          · fin_cases hm <;> cases hty
      · cases h
  | postLowerAssignOp v r =>
    simp only [varStep] at h
    rcases hget : vars[v]? with _ | tv0 <;> rw [hget] at h
    · cases h
    · dsimp only at h
      split at h
      · rename_i hguard
        have hv : vars.set v { tv0 with regNum := some r } = vars' := by
          simpa using h
        subst hv
        rcases List.mem_or_eq_of_mem_set htv with hm | hm
        · exact hinv tv hm hty
        · subst hm
          have h0 := hinv tv0 (List.getElem?_mem hget) hty
          rw [Bool.and_eq_true] at hguard
          rw [h0.2.1] at hguard
          exact absurd hguard.2 (by decide)
      · cases h

theorem runVarOps_preserves_i64Invariant (ops : List VarOp)
    (vars s : List TVar) (hinv : i64Invariant vars)
    (h : runVarOps ops vars = some s) : i64Invariant s := by
  induction ops generalizing vars with
  | nil =>
    have hv : vars = s := by simpa [runVarOps] using h
    subst hv
    exact hinv
  | cons op rest ih =>
    unfold runVarOps at h
    rcases hstep : varStep vars op with _ | vars' <;> rw [hstep] at h
    · cases h
    · exact ih vars'
        (varStep_preserves_i64Invariant vars vars' op hinv hstep) h

/-- C6 counterexample: an `i64` variable that the lowering never touches —
e.g. an unused `i64` argument — is not split by frame-layout time: after
the single operation that creates it, its `lo`/`hi` pair is absent.  The
frame-layout code itself anticipates this: `finishArgumentLowering`
(lines 584-597) gives an `i64` argument whose `Lo`/`Hi` are `NULL` a
direct whole-variable stack slot. -/
theorem C6_counterexample :
    runVarOps [VarOp.makeVariableOp Ty.i64] [] =
      some [⟨Ty.i64, none, false, false, false⟩] ∧
    (⟨Ty.i64, none, false, false, false⟩ : TVar).ty = Ty.i64 ∧
    (⟨Ty.i64, none, false, false, false⟩ : TVar).split = false := by
  refine ⟨by decide, rfl, rfl⟩

/-- C6 (amended): for every successfully executed sequence of the
variable operations this translation unit performs, every `i64` variable
that 64-bit lowering has accessed through its `lo`/`hi` halves is split,
and the register-number field of an `i64` variable is never assigned
(register-class temporaries are never created at type `i64`, and neither
`postLower` nor any other operation ever gives an `i64` variable a
register). -/
theorem C6_i64_never_register_split_on_access (ops : List VarOp)
    (s : List TVar) (h : runVarOps ops [] = some s) :
    ∀ tv ∈ s, tv.ty = Ty.i64 →
      tv.regNum = none ∧ (tv.accessed = true → tv.split = true) := by
  have hinv := runVarOps_preserves_i64Invariant ops [] s
    (by intro tv htv hty; cases htv) h
  intro tv htv hty
  exact ⟨(hinv tv htv hty).1, (hinv tv htv hty).2.2⟩

/-- Witness for C6: create an `i64` variable, access it through `lo`/`hi`
(which splits it), create an `i32` register temporary and color it in
`postLower`; the `i64` variable ends split and register-free. -/
theorem C6_i64_never_register_split_on_access_witness :
    runVarOps [VarOp.makeVariableOp Ty.i64, VarOp.accessLoHiOp 0,
        VarOp.makeRegOp Ty.i32 none, VarOp.postLowerAssignOp 3 1] [] =
      some [⟨Ty.i64, none, false, true, true⟩, freshVar Ty.i32,
        freshVar Ty.i32, ⟨Ty.i32, some 1, true, false, false⟩] ∧
    ∀ tv ∈ [⟨Ty.i64, none, false, true, true⟩, freshVar Ty.i32,
        freshVar Ty.i32, (⟨Ty.i32, some 1, true, false, false⟩ : TVar)],
      tv.ty = Ty.i64 →
        tv.regNum = none ∧ (tv.accessed = true → tv.split = true) :=
  ⟨by decide,
    C6_i64_never_register_split_on_access
      [VarOp.makeVariableOp Ty.i64, VarOp.accessLoHiOp 0,
        VarOp.makeRegOp Ty.i32 none, VarOp.postLowerAssignOp 3 1] _
      (by decide)⟩

end SZ
